import Mathlib

/-!
Verification of `simple_reccomendations.py` (TheOGZer0/TeamV1A1).

Shallow embedding conventions:
* A Psycopg2 record (tuple) is a `List α`; the dataset is a `List (List α)`.
* Python's nested dict produced by `group_data_by_unique_identifiers` is the
  inductive `GroupNode`: a dict is `node` over an insertion-ordered
  association list, a record list at the bottom is `leaf`.
* Raised exceptions (`IndexError` on `entry[i]` / `index_list[0]` /
  `var_names[0]`) are modelled by `Option`: `none` is an escaped exception.
* Python's global random state is modelled by an explicit stream of naturals
  (`List Nat`), consumed one number per primitive random draw; an exhausted
  stream keeps yielding `0`.  `random.choice(l)` is `pick1 l r`, reading the
  drawn number modulo `l.length`; `random.sample(l, m)` is `sample`, which
  draws an index, removes the element and recurses (distinct positions,
  any order reachable — the defining property of sampling without
  replacement).  Theorems quantify over the stream, i.e. over every
  possible run.
-/

namespace TeamV1A1

variable {α : Type}

/-- Python nested dict structure built by `group_data_by_unique_identifiers`
(lines 57-91): interior dicts map attribute values to subtrees, the innermost
values are lists of records. -/
inductive GroupNode (α : Type) where
  | leaf : List (List α) → GroupNode α
  | node : List (α × GroupNode α) → GroupNode α

/-- One draw from the random stream; an exhausted stream yields `0`. -/
def rnext : List Nat → Nat × List Nat
  | [] => (0, [])
  | x :: g => (x, g)

/-- `random.choice(l)` driven by a drawn number `r`: the element at position
`r % len(l)`; `d` is a default for the (unreachable in the program) empty
list. -/
def pick1 (l : List β) (r : Nat) (d : β) : β :=
  (l[(r % l.length)]?).getD d

/-- Mutate the element at one position of a list, as Python's
`dataset[index].append(...)` mutates one slot in place. -/
def updAt : List β → Nat → (β → β) → List β
  | [], _, _ => []
  | x :: xs, 0, f => f x :: xs
  | x :: xs, i + 1, f => x :: updAt xs i f

/-- `random.sample(data, m)` (lines 137, 139): `m` draws without replacement,
each draw picking a remaining element by position.  The program only calls it
with `m ≤ len(data)`. -/
def sample : List Nat → List (List α) → Nat → List (List α) × List Nat
  | g, _, 0 => ([], g)
  | g, data, m + 1 =>
    if data.isEmpty then ([], g)
    else
      let r := (rnext g).1
      let g1 := (rnext g).2
      let i := r % data.length
      let x := (data[i]?).getD []
      let rest := sample g1 (data.eraseIdx i) m
      (x :: rest.1, rest.2)

/-- The peer-borrowing fill of lines 123-125: `m` times append
`random.choice(random.choice(dataset))` to the slot at `index`.  The inner
`random.choice(dataset)` picks a slot among ALL current slots (the source
does not restrict to complete ones), the outer picks one of its entries. -/
def borrowFill : List Nat → List (List (List α)) → Nat → Nat →
    List (List (List α)) × List Nat
  | g, slots, _, 0 => (slots, g)
  | g, slots, index, m + 1 =>
    let r1 := (rnext g).1
    let g1 := (rnext g).2
    let chosen := pick1 slots r1 []
    let r2 := (rnext g1).1
    let g2 := (rnext g1).2
    let d := pick1 chosen r2 []
    borrowFill g2 (updAt slots index (fun s => s ++ [d])) index m

/-- The level-0 global fill of lines 127-128: `m` times append
`random.choice(original_dataset)` to the slot at `index`. -/
def globalFill (orig : List (List α)) : List Nat → List (List (List α)) →
    Nat → Nat → List (List (List α)) × List Nat
  | g, slots, _, 0 => (slots, g)
  | g, slots, index, m + 1 =>
    let r := (rnext g).1
    let g1 := (rnext g).2
    globalFill orig g1 (updAt slots index (fun s => s ++ [pick1 orig r []])) index m

/-- The `for index in incomplete_indexes` loop of lines 121-131.  `incLen` is
`len(incomplete_indexes)` of the full list being iterated (the loop never
mutates that list, so its length is constant).  The subtraction is Python
integer subtraction, hence computed in `Int`.  The number of appends,
`range(len(dataset[index]), recommendation_amount)`, is `k` minus the current
slot length.  Returns the slots together with `able_to_complete_datapoints`. -/
def fillAll (orig : List (List α)) (k level incLen : Nat) :
    List Nat → List (List (List α)) → List Nat →
    (List (List (List α)) × Bool) × List Nat
  | g, slots, [] => ((slots, true), g)
  | g, slots, index :: rest =>
    if (k : Int) ≤ (slots.length : Int) - (incLen : Int) then
      let pr := borrowFill g slots index (k - ((slots[index]?).getD []).length)
      fillAll orig k level incLen pr.2 pr.1 rest
    else if level = 0 then
      let pr := globalFill orig g slots index (k - ((slots[index]?).getD []).length)
      fillAll orig k level incLen pr.2 pr.1 rest
    else ((slots, false), g)

mutual
/-- `content_filter_recommendations_from_grouped_data` (lines 94-139).
`orig` is `original_dataset`, `k` is `recommendation_amount`.  Returns
`(dataset, incomplete_indexes)` plus the advanced random stream.  The dict
branch collects all children (one level deeper), then runs the fallback loop;
the list branch is the leaf sampling of lines 135-139. -/
def content_filter_recommendations_from_grouped_data (orig : List (List α))
    (k : Nat) : List Nat → GroupNode α → Nat →
    (List (List (List α)) × List Nat) × List Nat
  | g, .leaf data, _level =>
    if data.length < k then
      let pr := sample g data (min k data.length)
      (([pr.1], [0]), pr.2)
    else
      let pr := sample g data k
      (([pr.1], []), pr.2)
  | g, .node cs, level =>
    let pc := cfChildren orig k g cs level
    let slots := pc.1.1
    let inc := pc.1.2
    let pf := fillAll orig k level inc.length pc.2 slots inc
    ((pf.1.1, if pf.1.2 then [] else inc), pf.2)

/-- The `for k, v in data.items()` loop of lines 114-119: recurse into every
child at `level + 1`, concatenate the returned slot lists and shift each
child's incomplete indexes by the running slot offset. -/
def cfChildren (orig : List (List α)) (k : Nat) :
    List Nat → List (α × GroupNode α) → Nat →
    (List (List (List α)) × List Nat) × List Nat
  | g, [], _ => (([], []), g)
  | g, (_key, c) :: rest, level =>
    let pc := content_filter_recommendations_from_grouped_data orig k g c (level + 1)
    let pr := cfChildren orig k pc.2 rest level
    ((pc.1.1 ++ pr.1.1, pc.1.2 ++ pr.1.2.map (fun x => x + pc.1.1.length)), pr.2)
end

mutual
/-- Number of leaves (attribute permutations) of a grouped tree. -/
def leafCount : GroupNode α → Nat
  | .leaf _ => 1
  | .node cs => leafCountList cs

def leafCountList : List (α × GroupNode α) → Nat
  | [] => 0
  | (_, c) :: rest => leafCount c + leafCountList rest
end

mutual
/-- All records stored in the leaves of a tree, in leaf order. -/
def flatten : GroupNode α → List (List α)
  | .leaf l => l
  | .node cs => flattenList cs

def flattenList : List (α × GroupNode α) → List (List α)
  | [] => []
  | (_, c) :: rest => flatten c ++ flattenList rest
end

mutual
/-- Every leaf of the tree is a non-empty record list (true of every tree the
grouper builds). -/
def leavesNE : GroupNode α → Prop
  | .leaf l => l ≠ []
  | .node cs => leavesNEList cs

def leavesNEList : List (α × GroupNode α) → Prop
  | [] => True
  | (_, c) :: rest => leavesNE c ∧ leavesNEList rest
end

/-- `unique_identifiers[identifier].append(entry)` with dict auto-vivification
(lines 84-87): append `e` to the bucket of `key`, creating the bucket at the
end (Python dict insertion order) when absent. -/
def upsert [DecidableEq α] : List (α × List (List α)) → α → List α → List (α × List (List α))
  | [], key, e => [(key, [e])]
  | (k, v) :: rest, key, e =>
    if k = key then (k, v ++ [e]) :: rest else (k, v) :: upsert rest key e

/-- The `for entry in dataset` loop of lines 82-87 starting from accumulator
`acc`: bucket every record by its field at position `i`; `entry[i]` raising
`IndexError` (position out of range, or an empty `index_list` making
`index_list[0]` raise before the first access) escapes as `none`. -/
def group_fold [DecidableEq α] : List (α × List (List α)) → List (List α) → Nat →
    Option (List (α × List (List α)))
  | acc, [], _ => some acc
  | acc, e :: rest, i =>
    match e[i]? with
    | none => none
    | some key => group_fold (upsert acc key e) rest i

mutual
/-- `group_data_by_unique_identifiers` (lines 57-91).  With an empty
`index_list`, `index_list[0]` raises as soon as the loop body runs, i.e. iff
the dataset is non-empty; an empty dataset returns the empty dict untouched.
With `len(index_list) > 1` every bucket is regrouped by the remaining
indexes. -/
def group_data_by_unique_identifiers [DecidableEq α] : List (List α) → List Nat →
    Option (GroupNode α)
  | dataset, [] => if dataset.isEmpty then some (.node []) else none
  | dataset, i :: rest =>
    match group_fold [] dataset i with
    | none => none
    | some buckets =>
      if rest.isEmpty then
        some (.node (buckets.map (fun b => (b.1, .leaf b.2))))
      else
        match group_buckets buckets rest with
        | none => none
        | some children => some (.node children)
termination_by _dataset il => (il.length, 0)

/-- The `for k, v in unique_identifiers.items()` regrouping loop of
lines 89-90. -/
def group_buckets [DecidableEq α] : List (α × List (List α)) → List Nat →
    Option (List (α × GroupNode α))
  | [], _ => some []
  | (key, v) :: rest, il =>
    match group_data_by_unique_identifiers v il with
    | none => none
    | some t =>
      match group_buckets rest il with
      | none => none
      | some children => some ((key, t) :: children)
termination_by bs il => (il.length, bs.length + 1)
end

/-- First-match lookup among the children of an interior node. -/
def lookupChild [DecidableEq α] : List (α × GroupNode α) → α → Option (GroupNode α)
  | [], _ => none
  | (k, c) :: rest, key => if k = key then some c else lookupChild rest key

/-- Descend through the tree along a path of attribute values. -/
def subtreeAt [DecidableEq α] : GroupNode α → List α → Option (GroupNode α)
  | t, [] => some t
  | .leaf _, _ :: _ => none
  | .node cs, key :: rest =>
    match lookupChild cs key with
    | none => none
    | some c => subtreeAt c rest

/-- The row the loop body of lines 152-158 computes for one recommendation
slot: the attribute fields (all but field 0) of the slot's first record,
followed by field 0 of every record in the slot. -/
def export_row [Inhabited α] (recommendation : List (List α)) : List α :=
  (recommendation.headI.drop 1) ++ recommendation.map (fun product => product.headI)

/-- `content_filter_result_to_useful_SQL_dataset` (lines 142-158).  `data` is
the pair returned by the recommender (`data[0]` is the slot list).  The loop
rebuilds `result_data` for every slot and discards it, and the function has no
`return` statement: Python returns `None`, modelled as `none`. -/
def content_filter_result_to_useful_SQL_dataset [Inhabited α]
    (data : List (List (List α)) × List Nat) : Option (List (List α)) :=
  let _ := data.1.map export_row
  none

/-- Modelled from the spec: the Exporter contract of sections 4.3 and 8 —
`export` applied to a batch of `M` slots yields exactly `M` rows, in slot
order, each row being the permutation's attribute values (fields 1..N of the
slot's first record) followed by field 0 of every slot entry.  The source's
exporter body computes exactly these rows but never returns them. -/
def export_spec [Inhabited α] (batch : List (List (List α))) : List (List α) :=
  batch.map export_row

/-- `construct_insert_query` (lines 5-20).  `var_names[0]` raises on an empty
list. -/
def construct_insert_query (table_name : String) (var_names : List String) :
    Option String :=
  match var_names with
  | [] => none
  | v0 :: rest =>
    some ("INSERT INTO " ++ table_name ++ " (" ++ v0
      ++ String.join (rest.map (fun v => ", " ++ v))
      ++ ") VALUES (%s" ++ String.join (List.replicate rest.length ", %s") ++ ");")

/-- Column order of the table `create_rcmd_table` creates (lines 38-53):
the attribute columns in the given order, then `rcmd_1 .. rcmd_4`. -/
def create_rcmd_table_columns (unique_attributes : List (String × String)) :
    List String :=
  unique_attributes.map Prod.fst ++ ["rcmd_1", "rcmd_2", "rcmd_3", "rcmd_4"]

/-- The query the module-level script builds on line 167:
`construct_insert_query("Content_filtered", ["Category", "Brand"])`. -/
def script_insert_query : Option String :=
  construct_insert_query "Content_filtered" ["Category", "Brand"]

/-! ### Basic lemmas on the helper operations -/

theorem updAt_length (l : List β) (i : Nat) (f : β → β) :
    (updAt l i f).length = l.length := by
  induction l generalizing i with
  | nil => rfl
  | cons x xs ih =>
    cases i with
    | zero => rfl
    | succ j => simp [updAt, ih]

theorem updAt_get_ne (l : List β) (i j : Nat) (f : β → β) (h : j ≠ i) :
    (updAt l i f)[j]? = l[j]? := by
  induction l generalizing i j with
  | nil => rfl
  | cons x xs ih =>
    cases i with
    | zero =>
      cases j with
      | zero => exact absurd rfl h
      | succ j' => simp [updAt]
    | succ i' =>
      cases j with
      | zero => simp [updAt]
      | succ j' =>
        simp only [updAt, List.getElem?_cons_succ]
        exact ih i' j' (fun he => h (by rw [he]))

theorem updAt_get_self (l : List β) (i : Nat) (f : β → β) :
    (updAt l i f)[i]? = (l[i]?).map f := by
  induction l generalizing i with
  | nil => rfl
  | cons x xs ih =>
    cases i with
    | zero => simp [updAt]
    | succ j => simpa [updAt] using ih j

theorem mem_updAt (l : List β) (i : Nat) (f : β → β) (x : β)
    (h : x ∈ updAt l i f) : x ∈ l ∨ ∃ y, l[i]? = some y ∧ x = f y := by
  induction l generalizing i with
  | nil => simp [updAt] at h
  | cons a as ih =>
    cases i with
    | zero =>
      rcases List.mem_cons.mp h with h | h
      · exact Or.inr ⟨a, by simp, h⟩
      · exact Or.inl (List.mem_cons_of_mem _ h)
    | succ j =>
      rcases List.mem_cons.mp h with h | h
      · exact Or.inl (h ▸ List.mem_cons_self a as)
      · rcases ih j h with h' | ⟨y, hy, hx⟩
        · exact Or.inl (List.mem_cons_of_mem _ h')
        · exact Or.inr ⟨y, by simpa using hy, hx⟩

theorem pick1_mem (l : List β) (r : Nat) (d : β) (h : l ≠ []) :
    pick1 l r d ∈ l := by
  have hl : 0 < l.length := List.length_pos.mpr h
  have hr : r % l.length < l.length := Nat.mod_lt _ hl
  unfold pick1
  rw [List.getElem?_eq_getElem hr]
  exact List.getElem_mem hr

theorem cons_eraseIdx_perm (l : List β) (i : Nat) (h : i < l.length) :
    l.Perm (l[i] :: l.eraseIdx i) := by
  induction l generalizing i with
  | nil => simp at h
  | cons x xs ih =>
    cases i with
    | zero => simp
    | succ j =>
      have hj : j < xs.length := by simpa using h
      simp only [List.getElem_cons_succ, List.eraseIdx_cons_succ]
      exact List.Perm.trans (List.Perm.cons x (ih j hj)) (List.Perm.swap _ _ _)

theorem sample_length (g : List Nat) (data : List (List α)) (m : Nat) :
    (sample g data m).1.length = min m data.length := by
  induction m generalizing g data with
  | zero => simp [sample]
  | succ m ih =>
    cases hd : data.isEmpty with
    | true =>
      have : data = [] := List.isEmpty_iff.mp hd
      subst this
      simp [sample]
    | false =>
      have hne : data ≠ [] := by
        intro he; rw [he] at hd; simp at hd
      have hpos : 0 < data.length := List.length_pos.mpr hne
      simp only [sample, hd, Bool.false_eq_true, if_false]
      rw [List.length_cons, ih]
      rw [List.length_eraseIdx]
      have hlt : (rnext g).1 % data.length < data.length := Nat.mod_lt _ hpos
      rw [if_pos hlt]
      omega

theorem sample_subperm (g : List Nat) (data : List (List α)) (m : Nat) :
    (sample g data m).1.Subperm data := by
  induction m generalizing g data with
  | zero => simp [sample]
  | succ m ih =>
    cases hd : data.isEmpty with
    | true => simp [sample, hd]
    | false =>
      have hne : data ≠ [] := by
        intro he; rw [he] at hd; simp at hd
      have hpos : 0 < data.length := List.length_pos.mpr hne
      have hlt : (rnext g).1 % data.length < data.length := Nat.mod_lt _ hpos
      simp only [sample, hd, Bool.false_eq_true, if_false]
      rw [List.getElem?_eq_getElem hlt]
      simp only [Option.getD_some]
      have hsub : List.Subperm
          (data[(rnext g).1 % data.length] ::
            (sample (rnext g).2 (data.eraseIdx ((rnext g).1 % data.length)) m).1)
          (data[(rnext g).1 % data.length] ::
            data.eraseIdx ((rnext g).1 % data.length)) :=
        (List.subperm_cons _).mpr (ih _ _)
      exact hsub.trans (cons_eraseIdx_perm data _ hlt).symm.subperm

theorem sample_perm (g : List Nat) (data : List (List α)) (m : Nat)
    (h : data.length ≤ m) : (sample g data m).1.Perm data := by
  induction m generalizing g data with
  | zero =>
    have : data = [] := List.length_eq_zero.mp (Nat.le_zero.mp h)
    subst this; simp [sample]
  | succ m ih =>
    cases hd : data.isEmpty with
    | true =>
      have : data = [] := List.isEmpty_iff.mp hd
      subst this; simp [sample]
    | false =>
      have hne : data ≠ [] := by
        intro he; rw [he] at hd; simp at hd
      have hpos : 0 < data.length := List.length_pos.mpr hne
      have hlt : (rnext g).1 % data.length < data.length := Nat.mod_lt _ hpos
      simp only [sample, hd, Bool.false_eq_true, if_false]
      rw [List.getElem?_eq_getElem hlt]
      simp only [Option.getD_some]
      have hlen : (data.eraseIdx ((rnext g).1 % data.length)).length ≤ m := by
        rw [List.length_eraseIdx, if_pos hlt]; omega
      exact List.Perm.trans
        (List.Perm.cons _ (ih _ _ hlen))
        (cons_eraseIdx_perm data _ hlt).symm

theorem sample_mem (g : List Nat) (data : List (List α)) (m : Nat)
    (x : List α) (h : x ∈ (sample g data m).1) : x ∈ data := by
  induction m generalizing g data with
  | zero => simp [sample] at h
  | succ m ih =>
    cases hd : data.isEmpty with
    | true => simp [sample, hd] at h
    | false =>
      have hne : data ≠ [] := by
        intro he; rw [he] at hd; simp at hd
      have hpos : 0 < data.length := List.length_pos.mpr hne
      have hlt : (rnext g).1 % data.length < data.length := Nat.mod_lt _ hpos
      simp only [sample, hd, Bool.false_eq_true, if_false, List.mem_cons] at h
      rcases h with h | h
      · rw [List.getElem?_eq_getElem hlt] at h
        simp only [Option.getD_some] at h
        exact h ▸ List.getElem_mem hlt
      · exact List.mem_of_mem_eraseIdx (ih _ _ h)

theorem sample_ne_nil (g : List Nat) (data : List (List α)) (m : Nat)
    (hd : data ≠ []) (hm : 1 ≤ m) : (sample g data m).1 ≠ [] := by
  have h := sample_length g data m
  intro he
  rw [he] at h
  have : 0 < data.length := List.length_pos.mpr hd
  simp at h
  omega

/-! ### Lemmas on the fallback fills -/

theorem borrowFill_length (g : List Nat) (slots : List (List (List α)))
    (index m : Nat) : (borrowFill g slots index m).1.length = slots.length := by
  induction m generalizing g slots with
  | zero => rfl
  | succ m ih =>
    simp only [borrowFill]
    rw [ih, updAt_length]

theorem borrowFill_get_ne (g : List Nat) (slots : List (List (List α)))
    (index j m : Nat) (h : j ≠ index) :
    (borrowFill g slots index m).1[j]? = slots[j]? := by
  induction m generalizing g slots with
  | zero => rfl
  | succ m ih =>
    simp only [borrowFill]
    rw [ih, updAt_get_ne _ _ _ _ h]

theorem borrowFill_get_len (g : List Nat) (slots : List (List (List α)))
    (index m : Nat) (h : index < slots.length) :
    (((borrowFill g slots index m).1[index]?).getD []).length
      = ((slots[index]?).getD []).length + m := by
  induction m generalizing g slots with
  | zero => simp [borrowFill]
  | succ m ih =>
    simp only [borrowFill]
    rw [ih _ _ (by rw [updAt_length]; exact h)]
    rw [updAt_get_self, List.getElem?_eq_getElem h]
    simp only [Option.map_some', Option.getD_some, List.length_append,
      List.length_cons, List.length_nil]
    omega

theorem globalFill_length (orig : List (List α)) (g : List Nat)
    (slots : List (List (List α))) (index m : Nat) :
    (globalFill orig g slots index m).1.length = slots.length := by
  induction m generalizing g slots with
  | zero => rfl
  | succ m ih =>
    simp only [globalFill]
    rw [ih, updAt_length]

theorem globalFill_get_ne (orig : List (List α)) (g : List Nat)
    (slots : List (List (List α))) (index j m : Nat) (h : j ≠ index) :
    (globalFill orig g slots index m).1[j]? = slots[j]? := by
  induction m generalizing g slots with
  | zero => rfl
  | succ m ih =>
    simp only [globalFill]
    rw [ih, updAt_get_ne _ _ _ _ h]

theorem globalFill_get_len (orig : List (List α)) (g : List Nat)
    (slots : List (List (List α))) (index m : Nat) (h : index < slots.length) :
    (((globalFill orig g slots index m).1[index]?).getD []).length
      = ((slots[index]?).getD []).length + m := by
  induction m generalizing g slots with
  | zero => simp [globalFill]
  | succ m ih =>
    simp only [globalFill]
    rw [ih _ _ (by rw [updAt_length]; exact h)]
    rw [updAt_get_self, List.getElem?_eq_getElem h]
    simp only [Option.map_some', Option.getD_some, List.length_append,
      List.length_cons, List.length_nil]
    omega

/-- Everything the peer-borrowing fill ever appends is an entry already
present in one of the current slots; non-emptiness of every slot is
preserved.  `Q` is any property of the entries found in the slots. -/
theorem borrowFill_inv (Q : List α → Prop) (g : List Nat)
    (slots : List (List (List α))) (index m : Nat) (hne : slots ≠ [])
    (hall : ∀ s ∈ slots, s ≠ [] ∧ ∀ e ∈ s, Q e) :
    ∀ s ∈ (borrowFill g slots index m).1, s ≠ [] ∧ ∀ e ∈ s, Q e := by
  induction m generalizing g slots with
  | zero => simpa [borrowFill] using hall
  | succ m ih =>
    simp only [borrowFill]
    have hchosen : pick1 slots (rnext g).1 [] ∈ slots := pick1_mem _ _ _ hne
    have hcne : pick1 slots (rnext g).1 [] ≠ [] := (hall _ hchosen).1
    have hd : pick1 (pick1 slots (rnext g).1 []) (rnext (rnext g).2).1 []
        ∈ pick1 slots (rnext g).1 [] := pick1_mem _ _ _ hcne
    have hQd : Q (pick1 (pick1 slots (rnext g).1 []) (rnext (rnext g).2).1 []) :=
      (hall _ hchosen).2 _ hd
    apply ih
    · intro he
      have := updAt_length slots index
        (fun s => s ++ [pick1 (pick1 slots (rnext g).1 []) (rnext (rnext g).2).1 []])
      rw [he] at this
      exact hne (List.length_eq_zero.mp this.symm)
    · intro s hs
      rcases mem_updAt _ _ _ _ hs with h | ⟨y, hy, rfl⟩
      · exact hall s h
      · refine ⟨by simp, ?_⟩
        intro e he
        rcases List.mem_append.mp he with he | he
        · exact (hall y (List.getElem?_mem hy)).2 e he
        · rcases List.mem_singleton.mp he with rfl
          exact hQd

/-- The global fill preserves non-emptiness of every slot. -/
theorem globalFill_ne (orig : List (List α)) (g : List Nat)
    (slots : List (List (List α))) (index m : Nat)
    (hall : ∀ s ∈ slots, s ≠ []) :
    ∀ s ∈ (globalFill orig g slots index m).1, s ≠ [] := by
  induction m generalizing g slots with
  | zero => simpa [globalFill] using hall
  | succ m ih =>
    simp only [globalFill]
    apply ih
    intro s hs
    rcases mem_updAt _ _ _ _ hs with h | ⟨y, hy, rfl⟩
    · exact hall s h
    · simp

theorem fillAll_length (orig : List (List α)) (k level incLen : Nat)
    (g : List Nat) (slots : List (List (List α))) (inc : List Nat) :
    (fillAll orig k level incLen g slots inc).1.1.length = slots.length := by
  induction inc generalizing g slots with
  | nil => rfl
  | cons index rest ih =>
    simp only [fillAll]
    by_cases hc : (k : Int) ≤ (slots.length : Int) - (incLen : Int)
    · rw [if_pos hc, ih, borrowFill_length]
    · by_cases hl : level = 0
      · rw [if_neg hc, if_pos hl, ih, globalFill_length]
      · rw [if_neg hc, if_neg hl]

/-- At the outermost level the fallback loop always succeeds:
`able_to_complete_datapoints` stays `True`. -/
theorem fillAll_level0_able (orig : List (List α)) (k incLen : Nat)
    (g : List Nat) (slots : List (List (List α))) (inc : List Nat) :
    (fillAll orig k 0 incLen g slots inc).1.2 = true := by
  induction inc generalizing g slots with
  | nil => rfl
  | cons index rest ih =>
    simp only [fillAll]
    by_cases hc : (k : Int) ≤ (slots.length : Int) - (incLen : Int)
    · rw [if_pos hc]; exact ih _ _
    · rw [if_neg hc]
      simpa using ih _ _

/-- When the loop bails out (`able_to_complete_datapoints = False`) the slots
are returned untouched and the bail-out conditions held. -/
theorem fillAll_false (orig : List (List α)) (k level incLen : Nat)
    (g : List Nat) (slots : List (List (List α))) (inc : List Nat)
    (h : (fillAll orig k level incLen g slots inc).1.2 = false) :
    (fillAll orig k level incLen g slots inc).1.1 = slots ∧
      ¬ ((k : Int) ≤ (slots.length : Int) - (incLen : Int)) ∧ level ≠ 0 := by
  induction inc generalizing g slots with
  | nil => simp [fillAll] at h
  | cons index rest ih =>
    simp only [fillAll] at h ⊢
    by_cases hc : (k : Int) ≤ (slots.length : Int) - (incLen : Int)
    · rw [if_pos hc] at h ⊢
      rcases ih _ _ h with ⟨_, hcond, _⟩
      rw [borrowFill_length] at hcond
      exact absurd hc hcond
    · by_cases hl : level = 0
      · rw [if_neg hc, if_pos hl] at h ⊢
        rcases ih _ _ h with ⟨_, _, hlvl⟩
        exact absurd hl hlvl
      · rw [if_neg hc, if_neg hl]
        exact ⟨rfl, hc, hl⟩

/-- Effect of the fallback loop on slot lengths: indexes listed in the loop
are filled to exactly `k` entries whenever the loop reports success, and
slots at positions not listed are never touched. -/
theorem fillAll_spec (orig : List (List α)) (k level incLen : Nat)
    (g : List Nat) (slots : List (List (List α))) (inc : List Nat)
    (hinc : ∀ i ∈ inc, i < slots.length ∧ ((slots[i]?).getD []).length ≤ k) :
    ((fillAll orig k level incLen g slots inc).1.2 = true →
      ∀ i ∈ inc,
        (((fillAll orig k level incLen g slots inc).1.1[i]?).getD []).length = k) ∧
    (∀ j, j ∉ inc →
      (fillAll orig k level incLen g slots inc).1.1[j]? = slots[j]?) := by
  induction inc generalizing g slots with
  | nil => exact ⟨fun _ i hi => absurd hi (List.not_mem_nil i), fun j _ => rfl⟩
  | cons index rest ih =>
    have hidx := (hinc index (List.mem_cons_self _ _)).1
    have hlen := (hinc index (List.mem_cons_self _ _)).2
    simp only [fillAll]
    by_cases hc : (k : Int) ≤ (slots.length : Int) - (incLen : Int)
    · rw [if_pos hc]
      set slots1 := (borrowFill g slots index (k - ((slots[index]?).getD []).length)).1 with hs1
      have hlen1 : slots1.length = slots.length := borrowFill_length _ _ _ _
      have hself : ((slots1[index]?).getD []).length = k := by
        rw [hs1, borrowFill_get_len _ _ _ _ hidx]; omega
      have hother : ∀ j, j ≠ index → slots1[j]? = slots[j]? := fun j hj =>
        borrowFill_get_ne _ _ _ _ _ hj
      have hinc' : ∀ i ∈ rest, i < slots1.length ∧ ((slots1[i]?).getD []).length ≤ k := by
        intro i hi
        refine ⟨by rw [hlen1]; exact (hinc i (List.mem_cons_of_mem _ hi)).1, ?_⟩
        by_cases hii : i = index
        · rw [hii, hself]
        · rw [hother i hii]; exact (hinc i (List.mem_cons_of_mem _ hi)).2
      rcases ih _ _ hinc' with ⟨ih1, ih2⟩
      constructor
      · intro hab i hi
        rcases List.mem_cons.mp hi with rfl | hi'
        · by_cases hmem : i ∈ rest
          · exact ih1 hab i hmem
          · rw [ih2 i hmem, hself]
        · exact ih1 hab i hi'
      · intro j hj
        have hj1 : j ≠ index := fun he => hj (he ▸ List.mem_cons_self _ _)
        have hj2 : j ∉ rest := fun hm => hj (List.mem_cons_of_mem _ hm)
        rw [ih2 j hj2, hother j hj1]
    · by_cases hl : level = 0
      · rw [if_neg hc, if_pos hl]
        set slots1 := (globalFill orig g slots index (k - ((slots[index]?).getD []).length)).1 with hs1
        have hlen1 : slots1.length = slots.length := globalFill_length _ _ _ _ _
        have hself : ((slots1[index]?).getD []).length = k := by
          rw [hs1, globalFill_get_len _ _ _ _ _ hidx]; omega
        have hother : ∀ j, j ≠ index → slots1[j]? = slots[j]? := fun j hj =>
          globalFill_get_ne _ _ _ _ _ _ hj
        have hinc' : ∀ i ∈ rest, i < slots1.length ∧ ((slots1[i]?).getD []).length ≤ k := by
          intro i hi
          refine ⟨by rw [hlen1]; exact (hinc i (List.mem_cons_of_mem _ hi)).1, ?_⟩
          by_cases hii : i = index
          · rw [hii, hself]
          · rw [hother i hii]; exact (hinc i (List.mem_cons_of_mem _ hi)).2
        rcases ih _ _ hinc' with ⟨ih1, ih2⟩
        constructor
        · intro hab i hi
          rcases List.mem_cons.mp hi with rfl | hi'
          · by_cases hmem : i ∈ rest
            · exact ih1 hab i hmem
            · rw [ih2 i hmem, hself]
          · exact ih1 hab i hi'
        · intro j hj
          have hj1 : j ≠ index := fun he => hj (he ▸ List.mem_cons_self _ _)
          have hj2 : j ∉ rest := fun hm => hj (List.mem_cons_of_mem _ hm)
          rw [ih2 j hj2, hother j hj1]
      · rw [if_neg hc, if_neg hl]
        exact ⟨fun hab => by simp at hab, fun j _ => rfl⟩

/-- Entry/non-emptiness preservation through the whole fallback loop at a
non-outermost level (where the global fill can never fire). -/
theorem fillAll_inv (Q : List α → Prop) (orig : List (List α))
    (k level incLen : Nat) (g : List Nat) (slots : List (List (List α)))
    (inc : List Nat) (hk : 1 ≤ k) (hl : level ≠ 0)
    (hall : ∀ s ∈ slots, s ≠ [] ∧ ∀ e ∈ s, Q e) :
    ∀ s ∈ (fillAll orig k level incLen g slots inc).1.1,
      s ≠ [] ∧ ∀ e ∈ s, Q e := by
  induction inc generalizing g slots with
  | nil => simpa [fillAll] using hall
  | cons index rest ih =>
    simp only [fillAll]
    by_cases hc : (k : Int) ≤ (slots.length : Int) - (incLen : Int)
    · rw [if_pos hc]
      apply ih
      apply borrowFill_inv _ _ _ _ _ _ hall
      intro he
      rw [he] at hc
      simp only [List.length_nil, Nat.cast_zero, Int.zero_sub] at hc
      omega
    · rw [if_neg hc, if_neg hl]
      exact hall

/-! ### Induction principle for the nested tree -/

mutual
theorem groupNode_ind {motive : GroupNode α → Prop}
    (hleaf : ∀ l, motive (GroupNode.leaf l))
    (hnode : ∀ cs, (∀ p ∈ cs, motive p.2) → motive (GroupNode.node cs)) :
    ∀ t, motive t
  | .leaf l => hleaf l
  | .node cs => hnode cs (groupNode_ind_list hleaf hnode cs)

theorem groupNode_ind_list {motive : GroupNode α → Prop}
    (hleaf : ∀ l, motive (GroupNode.leaf l))
    (hnode : ∀ cs, (∀ p ∈ cs, motive p.2) → motive (GroupNode.node cs)) :
    ∀ cs : List (α × GroupNode α), ∀ p ∈ cs, motive p.2
  | q :: rest, p, hp => by
    rcases List.mem_cons.mp hp with heq | hp'
    · rw [heq]
      exact groupNode_ind hleaf hnode q.2
    · exact groupNode_ind_list hleaf hnode rest p hp'
end

/-! ### The slot-length invariant of the recommender -/

/-- Invariant tying a slot list to its incomplete-index list: incomplete
indexes are valid positions, incomplete slots hold at most `k` entries, and
every slot not reported incomplete holds exactly `k` entries. -/
def LenInv (k : Nat) (slots : List (List (List α))) (inc : List Nat) : Prop :=
  (∀ i ∈ inc, i < slots.length) ∧
  (∀ i ∈ inc, ((slots[i]?).getD []).length ≤ k) ∧
  (∀ i, i < slots.length → i ∉ inc → ((slots[i]?).getD []).length = k)

theorem cfChildren_len_inv (orig : List (List α)) (k : Nat)
    (cs : List (α × GroupNode α))
    (hcs : ∀ p ∈ cs, ∀ (g : List Nat) (level : Nat),
      LenInv k (content_filter_recommendations_from_grouped_data orig k g p.2 level).1.1
        (content_filter_recommendations_from_grouped_data orig k g p.2 level).1.2) :
    ∀ (g : List Nat) (level : Nat),
      LenInv k (cfChildren orig k g cs level).1.1 (cfChildren orig k g cs level).1.2 := by
  induction cs with
  | nil =>
    intro g level
    exact ⟨fun i hi => absurd hi (List.not_mem_nil i),
      fun i hi => absurd hi (List.not_mem_nil i),
      fun i hi _ => by simp [cfChildren] at hi⟩
  | cons q rest ih =>
    intro g level
    have IA := hcs q (List.mem_cons_self _ _) g (level + 1)
    have IB := ih (fun p hp => hcs p (List.mem_cons_of_mem _ hp))
      (content_filter_recommendations_from_grouped_data orig k g q.2 (level + 1)).2 level
    simp only [cfChildren]
    obtain ⟨q1, q2⟩ := q
    set A := (content_filter_recommendations_from_grouped_data orig k g q2 (level + 1)).1.1 with hA
    set ia := (content_filter_recommendations_from_grouped_data orig k g q2 (level + 1)).1.2 with hia
    set B := (cfChildren orig k
      (content_filter_recommendations_from_grouped_data orig k g q2 (level + 1)).2 rest level).1.1 with hB
    set ib := (cfChildren orig k
      (content_filter_recommendations_from_grouped_data orig k g q2 (level + 1)).2 rest level).1.2 with hib
    refine ⟨?_, ?_, ?_⟩
    · intro i hi
      rcases List.mem_append.mp hi with hi | hi
      · have := IA.1 i hi
        simp only [List.length_append]
        omega
      · rcases List.mem_map.mp hi with ⟨j, hj, rfl⟩
        have := IB.1 j hj
        simp only [List.length_append]
        omega
    · intro i hi
      rcases List.mem_append.mp hi with hi | hi
      · rw [List.getElem?_append_left (IA.1 i hi)]
        exact IA.2.1 i hi
      · rcases List.mem_map.mp hi with ⟨j, hj, rfl⟩
        rw [List.getElem?_append_right (by omega : A.length ≤ j + A.length)]
        simp only [Nat.add_sub_cancel]
        exact IB.2.1 j hj
    · intro i hilt hinot
      simp only [List.length_append] at hilt
      by_cases hiA : i < A.length
      · rw [List.getElem?_append_left hiA]
        refine IA.2.2 i hiA (fun hmem => hinot ?_)
        exact List.mem_append.mpr (Or.inl hmem)
      · have hge : A.length ≤ i := Nat.le_of_not_lt hiA
        rw [List.getElem?_append_right hge]
        refine IB.2.2 (i - A.length) (by omega) (fun hmem => hinot ?_)
        refine List.mem_append.mpr (Or.inr ?_)
        exact List.mem_map.mpr ⟨i - A.length, hmem, by omega⟩

theorem cf_len_inv (orig : List (List α)) (k : Nat) (t : GroupNode α) :
    ∀ (g : List Nat) (level : Nat),
      LenInv k (content_filter_recommendations_from_grouped_data orig k g t level).1.1
        (content_filter_recommendations_from_grouped_data orig k g t level).1.2 := by
  refine groupNode_ind (motive := fun t => ∀ (g : List Nat) (level : Nat),
    LenInv k (content_filter_recommendations_from_grouped_data orig k g t level).1.1
      (content_filter_recommendations_from_grouped_data orig k g t level).1.2) ?_ ?_ t
  · intro data g level
    simp only [content_filter_recommendations_from_grouped_data]
    by_cases hlt : data.length < k
    · rw [if_pos hlt]
      refine ⟨?_, ?_, ?_⟩
      · intro i hi
        rcases List.mem_singleton.mp hi with rfl
        simp
      · intro i hi
        rcases List.mem_singleton.mp hi with rfl
        simp only [List.getElem?_cons_zero, Option.getD_some]
        rw [sample_length]
        omega
      · intro i hilt hinot
        have hi0 : i = 0 := by simp at hilt; omega
        subst hi0
        exact absurd (List.mem_singleton.mpr rfl) hinot
    · rw [if_neg hlt]
      refine ⟨fun i hi => absurd hi (List.not_mem_nil i),
        fun i hi => absurd hi (List.not_mem_nil i), ?_⟩
      intro i hilt _
      have hi0 : i = 0 := by simp at hilt; omega
      subst hi0
      simp only [List.getElem?_cons_zero, Option.getD_some]
      rw [sample_length]
      omega
  · intro cs hcs g level
    have L := cfChildren_len_inv orig k cs hcs g level
    simp only [content_filter_recommendations_from_grouped_data]
    set slots := (cfChildren orig k g cs level).1.1 with hslots
    set inc := (cfChildren orig k g cs level).1.2 with hinc
    set g1 := (cfChildren orig k g cs level).2 with hg1
    have hspec := fillAll_spec orig k level inc.length g1 slots inc
      (fun i hi => ⟨L.1 i hi, L.2.1 i hi⟩)
    have hlen : (fillAll orig k level inc.length g1 slots inc).1.1.length
        = slots.length := fillAll_length _ _ _ _ _ _ _
    cases hb : (fillAll orig k level inc.length g1 slots inc).1.2 with
    | true =>
      rw [if_pos rfl]
      refine ⟨fun i hi => absurd hi (List.not_mem_nil i),
        fun i hi => absurd hi (List.not_mem_nil i), ?_⟩
      intro i hilt _
      rw [hlen] at hilt
      by_cases hmem : i ∈ inc
      · exact hspec.1 hb i hmem
      · rw [hspec.2 i hmem]
        exact L.2.2 i hilt hmem
    | false =>
      rw [if_neg (by simp)]
      have hfalse := fillAll_false orig k level inc.length g1 slots inc hb
      rw [hfalse.1]
      exact L

/-! ### Slot counting and level-0 termination -/

theorem cfChildren_slot_count (orig : List (List α)) (k : Nat)
    (cs : List (α × GroupNode α))
    (hcs : ∀ p ∈ cs, ∀ (g : List Nat) (level : Nat),
      (content_filter_recommendations_from_grouped_data orig k g p.2 level).1.1.length
        = leafCount p.2) :
    ∀ (g : List Nat) (level : Nat),
      (cfChildren orig k g cs level).1.1.length = leafCountList cs := by
  induction cs with
  | nil => intro g level; rfl
  | cons q rest ih =>
    intro g level
    obtain ⟨q1, q2⟩ := q
    simp only [cfChildren, List.length_append, leafCountList]
    rw [hcs ⟨q1, q2⟩ (List.mem_cons_self _ _) g (level + 1),
      ih (fun p hp => hcs p (List.mem_cons_of_mem _ hp)) _ level]

theorem cf_slot_count (orig : List (List α)) (k : Nat) (t : GroupNode α) :
    ∀ (g : List Nat) (level : Nat),
      (content_filter_recommendations_from_grouped_data orig k g t level).1.1.length
        = leafCount t := by
  refine groupNode_ind (motive := fun t => ∀ (g : List Nat) (level : Nat),
    (content_filter_recommendations_from_grouped_data orig k g t level).1.1.length
      = leafCount t) ?_ ?_ t
  · intro data g level
    simp only [content_filter_recommendations_from_grouped_data, leafCount]
    by_cases hlt : data.length < k
    · rw [if_pos hlt]
      rfl
    · rw [if_neg hlt]
      rfl
  · intro cs hcs g level
    simp only [content_filter_recommendations_from_grouped_data, leafCount]
    rw [fillAll_length, cfChildren_slot_count orig k cs hcs g level]

/-- The outermost (level-0) call on a dict never reports an incomplete
index. -/
theorem cf_node_level0_inc (orig : List (List α)) (k : Nat) (g : List Nat)
    (cs : List (α × GroupNode α)) :
    (content_filter_recommendations_from_grouped_data orig k g (.node cs) 0).1.2 = [] := by
  simp only [content_filter_recommendations_from_grouped_data]
  rw [fillAll_level0_able]
  simp

/-- The grouper returns either a failure or a dict at the top. -/
theorem group_node_shape [DecidableEq α] (ds : List (List α)) (il : List Nat) :
    group_data_by_unique_identifiers ds il = none ∨
    ∃ cs, group_data_by_unique_identifiers ds il = some (GroupNode.node cs) := by
  cases il with
  | nil =>
    simp only [group_data_by_unique_identifiers]
    by_cases hds : ds.isEmpty
    · rw [if_pos hds]; exact Or.inr ⟨[], rfl⟩
    · rw [if_neg hds]; exact Or.inl rfl
  | cons i rest =>
    simp only [group_data_by_unique_identifiers]
    cases group_fold [] ds i with
    | none => exact Or.inl rfl
    | some buckets =>
      dsimp only
      by_cases hr : rest.isEmpty
      · rw [if_pos hr]; exact Or.inr ⟨_, rfl⟩
      · rw [if_neg hr]
        cases group_buckets buckets rest with
        | none => exact Or.inl rfl
        | some children =>
          dsimp only
          exact Or.inr ⟨children, rfl⟩

/-- The grouper only ever returns a dict at the top. -/
theorem group_is_node [DecidableEq α] (ds : List (List α)) (il : List Nat)
    (t : GroupNode α) (h : group_data_by_unique_identifiers ds il = some t) :
    ∃ cs, t = GroupNode.node cs := by
  rcases group_node_shape ds il with hnone | ⟨cs, hsome⟩
  · rw [hnone] at h; exact absurd h (by simp)
  · rw [hsome] at h; exact ⟨cs, (Option.some.inj h).symm⟩

/-- The slots returned by the outermost call on a grouped dict all hold
exactly `k` entries. -/
theorem cf_level0_all_k [DecidableEq α] (ds : List (List α)) (il : List Nat)
    (t : GroupNode α) (k : Nat) (g : List Nat)
    (h : group_data_by_unique_identifiers ds il = some t) :
    ∀ s ∈ (content_filter_recommendations_from_grouped_data ds k g t 0).1.1,
      s.length = k := by
  obtain ⟨cs, rfl⟩ := group_is_node ds il t h
  intro s hs
  have hinv := cf_len_inv ds k (GroupNode.node cs) g 0
  have hincnil := cf_node_level0_inc ds k g cs
  rcases List.mem_iff_getElem?.mp hs with ⟨i, hi⟩
  have hilt : i < (content_filter_recommendations_from_grouped_data ds k g
      (GroupNode.node cs) 0).1.1.length := by
    rcases List.getElem?_eq_some.mp hi with ⟨hlt, _⟩
    exact hlt
  have := hinv.2.2 i hilt (by rw [hincnil]; exact List.not_mem_nil i)
  rw [hi] at this
  simpa using this

/-! ### C10, C3, C1 -/

/-- C10 (slot-count invariant): for every grouped tree, every random stream
and every recursion level, the recommender returns exactly one slot per leaf
of the tree. -/
theorem C10_slot_count (orig : List (List α)) (k : Nat) (t : GroupNode α)
    (g : List Nat) (level : Nat) :
    (content_filter_recommendations_from_grouped_data orig k g t level).1.1.length
      = leafCount t :=
  cf_slot_count orig k t g level

/-- C3 (termination guarantee): at level 0 on the dict tree produced by the
grouper from a non-empty dataset, the returned incomplete-index list is
empty. -/
theorem C3_level0_incomplete_empty [DecidableEq α] (ds : List (List α))
    (il : List Nat) (t : GroupNode α) (k : Nat) (g : List Nat)
    (h : group_data_by_unique_identifiers ds il = some t) (_hne : ds ≠ []) :
    (content_filter_recommendations_from_grouped_data ds k g t 0).1.2 = [] := by
  obtain ⟨cs, rfl⟩ := group_is_node ds il t h
  exact cf_node_level0_inc ds k g cs

/-- Concrete two-record dataset, smaller than the default quota `k = 4`. -/
def exds1 : List (List Nat) := [[1, 10], [2, 10]]

/-- The tree the grouper builds from `exds1` with `index_list = [1]`. -/
def exTree1 : GroupNode Nat := .node [(10, .leaf [[1, 10], [2, 10]])]

/-- C1 counterexample: on a dataset of size `2 < k = 4` the outermost call
does NOT freeze the slot at `min(k, |dataset|) = 2` entries — the level-0
global fallback pads it to `4` entries (with repetitions), so the claimed
`min(k, dataset size)` count is wrong. -/
theorem C1_counterexample :
    group_data_by_unique_identifiers exds1 [1] = some exTree1 ∧
    exds1.length < 4 ∧
    (content_filter_recommendations_from_grouped_data exds1 4 [] exTree1 0).1.1
      = [[[1, 10], [2, 10], [1, 10], [1, 10]]] ∧
    ([[1, 10], [2, 10], [1, 10], [1, 10]] : List (List Nat)).length
      ≠ min 4 exds1.length :=
  ⟨by simp [group_data_by_unique_identifiers, group_fold, upsert, exds1, exTree1],
    by decide, by decide, by decide⟩

/-- C1 as amended: for every dataset and grouped tree, every slot in the
batch returned by the outermost (level-0) recommender call holds exactly `k`
entries — also when the dataset is smaller than `k` (the level-0 fallback
pads short slots with repeated random records instead of freezing them). -/
theorem C1_amended_quota [DecidableEq α] (ds : List (List α)) (il : List Nat)
    (t : GroupNode α) (k : Nat) (g : List Nat)
    (h : group_data_by_unique_identifiers ds il = some t) (_hne : ds ≠ []) :
    ∀ s ∈ (content_filter_recommendations_from_grouped_data ds k g t 0).1.1,
      s.length = k :=
  cf_level0_all_k ds il t k g h

/-- Witness for C1: the amended quota theorem applied to the concrete run of
`C1_counterexample`. -/
theorem C1_amended_quota_witness :
    ([[1, 10], [2, 10], [1, 10], [1, 10]] : List (List Nat)).length = 4 :=
  C1_amended_quota exds1 [1] exTree1 4 []
    (by simp [group_data_by_unique_identifiers, group_fold, upsert, exds1, exTree1])
    (by decide) _ (by decide)

/-- Witness for C3: the termination theorem applied to the same concrete
run. -/
theorem C3_witness :
    (content_filter_recommendations_from_grouped_data exds1 4 [] exTree1 0).1.2 = [] :=
  C3_level0_incomplete_empty exds1 [1] exTree1 4 []
    (by simp [group_data_by_unique_identifiers, group_fold, upsert, exds1, exTree1])
    (by decide)

/-! ### The grouper as a partition -/

/-- Concatenation of all bucket record lists of a one-level grouping. -/
def bflat : List (α × List (List α)) → List (List α)
  | [] => []
  | (_, v) :: rest => v ++ bflat rest

theorem bflat_upsert [DecidableEq α] (m : List (α × List (List α)))
    (key : α) (e : List α) :
    (bflat (upsert m key e)).Perm (bflat m ++ [e]) := by
  induction m with
  | nil => simp [upsert, bflat]
  | cons q rest ih =>
    obtain ⟨qk, qv⟩ := q
    by_cases hk : qk = key
    · simp only [upsert, if_pos hk, bflat]
      rw [List.append_assoc, List.append_assoc]
      exact List.Perm.append_left qv List.perm_append_comm
    · simp only [upsert, if_neg hk, bflat]
      rw [List.append_assoc]
      exact List.Perm.append_left qv ih

theorem group_fold_flat [DecidableEq α] (i : Nat) :
    ∀ (ds : List (List α)) (acc m : List (α × List (List α))),
      group_fold acc ds i = some m → (bflat m).Perm (bflat acc ++ ds) := by
  intro ds
  induction ds with
  | nil =>
    intro acc m h
    simp only [group_fold, Option.some.injEq] at h
    subst h
    simp
  | cons e rest ih =>
    intro acc m h
    simp only [group_fold] at h
    cases he : e[i]? with
    | none => simp [he] at h
    | some key =>
      simp only [he] at h
      refine (ih _ _ h).trans ?_
      refine (((bflat_upsert acc key e).append_right rest).trans ?_)
      rw [List.append_assoc]
      exact List.Perm.refl _

theorem flattenList_map_leaf (bs : List (α × List (List α))) :
    flattenList (bs.map (fun b => (b.1, GroupNode.leaf b.2))) = bflat bs := by
  induction bs with
  | nil => rfl
  | cons q rest ih =>
    obtain ⟨qk, qv⟩ := q
    simp only [List.map_cons, flattenList, flatten, bflat, ih]

theorem group_buckets_flat [DecidableEq α] (il : List Nat)
    (hgroup : ∀ (v : List (List α)) (t : GroupNode α),
      group_data_by_unique_identifiers v il = some t → (flatten t).Perm v) :
    ∀ (bs : List (α × List (List α))) (children : List (α × GroupNode α)),
      group_buckets bs il = some children →
      (flattenList children).Perm (bflat bs) := by
  intro bs
  induction bs with
  | nil =>
    intro children h
    simp only [group_buckets, Option.some.injEq] at h
    subst h
    simp [flattenList, bflat]
  | cons q rest ih =>
    intro children h
    obtain ⟨key, v⟩ := q
    simp only [group_buckets] at h
    cases hg : group_data_by_unique_identifiers v il with
    | none => simp [hg] at h
    | some t =>
      simp only [hg] at h
      cases hb : group_buckets rest il with
      | none => simp [hb] at h
      | some ch =>
        simp only [hb, Option.some.injEq] at h
        subst h
        simp only [flattenList, bflat]
        exact (hgroup v t hg).append (ih ch hb)

theorem group_flat [DecidableEq α] :
    ∀ (il : List Nat) (ds : List (List α)) (t : GroupNode α),
      group_data_by_unique_identifiers ds il = some t → (flatten t).Perm ds := by
  intro il
  induction il with
  | nil =>
    intro ds t h
    simp only [group_data_by_unique_identifiers] at h
    by_cases hds : ds.isEmpty
    · rw [if_pos hds] at h
      obtain rfl : GroupNode.node [] = t := Option.some.inj h
      rw [List.isEmpty_iff.mp hds]
      exact List.Perm.refl _
    · rw [if_neg hds] at h
      exact absurd h (by simp)
  | cons i rest ih =>
    intro ds t h
    simp only [group_data_by_unique_identifiers] at h
    cases hgf : group_fold [] ds i with
    | none => simp [hgf] at h
    | some buckets =>
      simp only [hgf] at h
      have hbf : (bflat buckets).Perm ds := by
        have := group_fold_flat i ds [] buckets hgf
        simpa [bflat] using this
      by_cases hr : rest.isEmpty
      · rw [if_pos hr] at h
        obtain rfl : GroupNode.node (buckets.map fun b => (b.1, GroupNode.leaf b.2)) = t :=
          Option.some.inj h
        show (flattenList _).Perm ds
        rw [flattenList_map_leaf]
        exact hbf
      · rw [if_neg hr] at h
        cases hgb : group_buckets buckets rest with
        | none => simp [hgb] at h
        | some children =>
          simp only [hgb] at h
          obtain rfl : GroupNode.node children = t := Option.some.inj h
          exact (group_buckets_flat rest (fun v t' => ih v t') buckets children hgb).trans hbf

theorem group_fold_some [DecidableEq α] (i : Nat) :
    ∀ (ds : List (List α)) (acc : List (α × List (List α))),
      (∀ e ∈ ds, i < e.length) → ∃ m, group_fold acc ds i = some m := by
  intro ds
  induction ds with
  | nil => exact fun acc _ => ⟨acc, rfl⟩
  | cons e rest ih =>
    intro acc hv
    simp only [group_fold]
    rw [List.getElem?_eq_getElem (hv e (List.mem_cons_self _ _))]
    exact ih _ (fun e' he' => hv e' (List.mem_cons_of_mem _ he'))

theorem mem_bflat (bs : List (α × List (List α))) (key : α)
    (v : List (List α)) (h : (key, v) ∈ bs) (x : List α) (hx : x ∈ v) :
    x ∈ bflat bs := by
  induction bs with
  | nil => simp at h
  | cons q rest ih =>
    obtain ⟨q1, q2⟩ := q
    rcases List.mem_cons.mp h with heq | hmem
    · have hv2 : v = q2 := congrArg Prod.snd heq
      simp only [bflat]
      exact List.mem_append.mpr (Or.inl (hv2 ▸ hx))
    · simp only [bflat]
      exact List.mem_append.mpr (Or.inr (ih hmem))

theorem group_buckets_some [DecidableEq α] (il : List Nat) :
    ∀ (bs : List (α × List (List α))),
      (∀ p ∈ bs, ∃ t, group_data_by_unique_identifiers p.2 il = some t) →
      ∃ ch, group_buckets bs il = some ch := by
  intro bs
  induction bs with
  | nil => exact fun _ => ⟨[], by simp [group_buckets]⟩
  | cons q rest ih =>
    intro h
    obtain ⟨t, ht⟩ := h q (List.mem_cons_self _ _)
    obtain ⟨ch, hch⟩ := ih (fun p hp => h p (List.mem_cons_of_mem _ hp))
    obtain ⟨q1, q2⟩ := q
    simp only [group_buckets]
    rw [ht]
    dsimp only
    rw [hch]
    exact ⟨_, rfl⟩

theorem group_some [DecidableEq α] :
    ∀ (il : List Nat) (ds : List (List α)), il ≠ [] →
      (∀ e ∈ ds, ∀ i ∈ il, i < e.length) →
      ∃ t, group_data_by_unique_identifiers ds il = some t := by
  intro il
  induction il with
  | nil => exact fun ds hne _ => absurd rfl hne
  | cons i rest ih =>
    intro ds _ hv
    simp only [group_data_by_unique_identifiers]
    obtain ⟨m, hm⟩ := group_fold_some i ds []
      (fun e he => hv e he i (List.mem_cons_self _ _))
    rw [hm]
    dsimp only
    by_cases hr : rest.isEmpty
    · rw [if_pos hr]
      exact ⟨_, rfl⟩
    · rw [if_neg hr]
      have hrne : rest ≠ [] := by
        intro he; rw [he] at hr; simp at hr
      have hmem : ∀ x ∈ bflat m, x ∈ ds := by
        intro x hx
        have := group_fold_flat i ds [] m hm
        have hperm : (bflat m).Perm ds := by simpa [bflat] using this
        exact hperm.mem_iff.mp hx
      obtain ⟨ch, hch⟩ := group_buckets_some rest m (fun p hp => by
        refine ih p.2 hrne ?_
        intro e he j hj
        exact hv e (hmem e (mem_bflat m p.1 p.2 (by simpa using hp) e he)) j
          (List.mem_cons_of_mem _ hj))
      rw [hch]
      dsimp only
      exact ⟨_, rfl⟩

/-! ### C2, C8 -/

/-- C2 (partition totality): for every record list and every non-empty index
list whose indexes are valid positions in every record, the grouper succeeds
and the multiset union of all leaf lists is exactly the input list — no
record dropped or duplicated. -/
theorem C2_partition_totality [DecidableEq α] (ds : List (List α))
    (il : List Nat) (hne : il ≠ [])
    (hv : ∀ e ∈ ds, ∀ i ∈ il, i < e.length) :
    ∃ t, group_data_by_unique_identifiers ds il = some t ∧ (flatten t).Perm ds := by
  obtain ⟨t, ht⟩ := group_some il ds hne hv
  exact ⟨t, ht, group_flat il ds t ht⟩

/-- Witness for C2: the concrete two-record dataset grouped by field 1. -/
theorem C2_partition_totality_witness : (flatten exTree1).Perm exds1 := by
  obtain ⟨t, ht, hperm⟩ := C2_partition_totality exds1 [1] (by decide) (by decide)
  have hconc : group_data_by_unique_identifiers exds1 [1] = some exTree1 := by
    simp [group_data_by_unique_identifiers, group_fold, upsert, exds1, exTree1]
  rw [hconc] at ht
  obtain rfl : exTree1 = t := Option.some.inj ht
  exact hperm

/-- C8 counterexample: an empty record list is a precondition violation the
claim says must fail, but the grouper silently returns an empty grouping. -/
theorem C8_counterexample :
    group_data_by_unique_identifiers ([] : List (List Nat)) [0]
      = some (GroupNode.node []) := by
  simp [group_data_by_unique_identifiers, group_fold]

/-- C8 as amended: with at least one record, an empty attribute-index list or
a first index out of range of the first record makes the grouper fail (the
`IndexError` escapes before any grouping result is produced); an empty record
list is NOT rejected — the grouper silently returns the empty grouping,
whatever the index list. -/
theorem C8_amended_failfast [DecidableEq α] :
    (∀ (e : List α) (ds : List (List α)),
      group_data_by_unique_identifiers (e :: ds) [] = none) ∧
    (∀ (e : List α) (ds : List (List α)) (i : Nat) (rest : List Nat),
      e.length ≤ i →
      group_data_by_unique_identifiers (e :: ds) (i :: rest) = none) ∧
    (∀ il : List Nat,
      group_data_by_unique_identifiers ([] : List (List α)) il
        = some (GroupNode.node [])) := by
  refine ⟨?_, ?_, ?_⟩
  · intro e ds
    simp [group_data_by_unique_identifiers]
  · intro e ds i rest h
    simp only [group_data_by_unique_identifiers, group_fold]
    rw [List.getElem?_eq_none h]
  · intro il
    cases il with
    | nil => simp [group_data_by_unique_identifiers]
    | cons i rest =>
      simp only [group_data_by_unique_identifiers, group_fold]
      by_cases hr : rest.isEmpty
      · rw [if_pos hr]
        simp
      · rw [if_neg hr]
        simp [group_buckets]

/-- Witness for C8's amended statement at concrete inputs. -/
theorem C8_amended_failfast_witness :
    group_data_by_unique_identifiers ([[5]] : List (List Nat)) [] = none ∧
    group_data_by_unique_identifiers ([[5]] : List (List Nat)) [3] = none ∧
    group_data_by_unique_identifiers ([] : List (List Nat)) [1, 2]
      = some (GroupNode.node []) :=
  ⟨C8_amended_failfast.1 [5] [], C8_amended_failfast.2.1 [5] [] 3 [] (by decide),
    C8_amended_failfast.2.2 [1, 2]⟩

/-! ### C4, C7, C9 -/

/-- C4 (leaf selection): on a leaf of `n` records the recommender returns
exactly one slot; if `n ≥ k` the slot holds `k` records drawn at distinct
leaf positions (a sub-permutation of the leaf) and no incompleteness is
reported; if `n < k` the slot is a permutation (shuffle) of the whole leaf
and the reported incomplete-index list is exactly `[0]`. -/
theorem C4_leaf_selection (orig : List (List α)) (k : Nat)
    (data : List (List α)) (g : List Nat) (level : Nat) :
    (content_filter_recommendations_from_grouped_data orig k g
      (.leaf data) level).1.1.length = 1 ∧
    (k ≤ data.length → ∃ s,
      (content_filter_recommendations_from_grouped_data orig k g
        (.leaf data) level).1.1 = [s] ∧
      s.length = k ∧ List.Subperm s data ∧
      (content_filter_recommendations_from_grouped_data orig k g
        (.leaf data) level).1.2 = []) ∧
    (data.length < k → ∃ s,
      (content_filter_recommendations_from_grouped_data orig k g
        (.leaf data) level).1.1 = [s] ∧
      s.Perm data ∧
      (content_filter_recommendations_from_grouped_data orig k g
        (.leaf data) level).1.2 = [0]) := by
  refine ⟨?_, ?_, ?_⟩
  · simp only [content_filter_recommendations_from_grouped_data]
    by_cases hlt : data.length < k
    · rw [if_pos hlt]
      rfl
    · rw [if_neg hlt]
      rfl
  · intro hk
    have hnlt : ¬ data.length < k := by omega
    refine ⟨(sample g data k).1, ?_, ?_, sample_subperm g data k, ?_⟩
    · simp only [content_filter_recommendations_from_grouped_data]
      rw [if_neg hnlt]
    · rw [sample_length]
      omega
    · simp only [content_filter_recommendations_from_grouped_data]
      rw [if_neg hnlt]
  · intro hlt
    refine ⟨(sample g data (min k data.length)).1, ?_, ?_, ?_⟩
    · simp only [content_filter_recommendations_from_grouped_data]
      rw [if_pos hlt]
    · have hmin : min k data.length = data.length :=
        Nat.min_eq_right (Nat.le_of_lt hlt)
      rw [hmin]
      exact sample_perm g data data.length (le_refl _)
    · simp only [content_filter_recommendations_from_grouped_data]
      rw [if_pos hlt]

/-- Witness for C4: both leaf branches on concrete leaves. -/
theorem C4_leaf_selection_witness :
    (content_filter_recommendations_from_grouped_data [[1], [2]] 2 []
      (.leaf [[1], [2]]) 1).1.2 = [] ∧
    (content_filter_recommendations_from_grouped_data [[1]] 2 []
      (.leaf [[1]]) 1).1.2 = [0] := by
  constructor
  · obtain ⟨s, _, _, _, hinc⟩ :=
      (C4_leaf_selection (α := Nat) [[1], [2]] 2 [[1], [2]] [] 1).2.1 (by decide)
    exact hinc
  · obtain ⟨s, _, _, hinc⟩ :=
      (C4_leaf_selection (α := Nat) [[1]] 2 [[1]] [] 1).2.2 (by decide)
    exact hinc

/-- A concrete recommendation batch: one complete slot of four records. -/
def exB : List (List (List Nat)) := [[[1, 10], [2, 10], [3, 10], [4, 10]]]

/-- C7 (export shape): the exporter of the source computes each row inside
its loop but never accumulates or returns them — it returns Python `None`
(and prints), not one row per slot.  The spec-modelled exporter shows what
the loop body would have produced for the concrete batch. -/
theorem C7_export_returns_none :
    content_filter_result_to_useful_SQL_dataset (exB, ([] : List Nat)) = none ∧
    export_spec exB = [[10, 1, 2, 3, 4]] ∧
    ∀ (data : List (List (List Nat)) × List Nat),
      content_filter_result_to_useful_SQL_dataset data = none :=
  ⟨rfl, by decide, fun _ => rfl⟩

/-- C9 (bulk-insert column order): the module-level script builds the insert
statement from the attribute columns only — the four `rcmd` columns of the
`Content_filtered` table are missing, so the statement does not match the
table's column order (attributes then `rcmd_1 .. rcmd_4`). -/
theorem C9_insert_query_missing_rcmd_columns :
    script_insert_query
      = some "INSERT INTO Content_filtered (Category, Brand) VALUES (%s, %s);" ∧
    construct_insert_query "Content_filtered"
        (create_rcmd_table_columns [("Category", "VARCHAR"), ("Brand", "VARCHAR")])
      = some "INSERT INTO Content_filtered (Category, Brand, rcmd_1, rcmd_2, rcmd_3, rcmd_4) VALUES (%s, %s, %s, %s, %s, %s);" ∧
    script_insert_query ≠ construct_insert_query "Content_filtered"
        (create_rcmd_table_columns [("Category", "VARCHAR"), ("Brand", "VARCHAR")]) :=
  ⟨rfl, rfl, by decide⟩

/-! ### C5 -/

/-- Concrete dataset with four full categories and one singleton category. -/
def exds5 : List (List Nat) :=
  [[1, 10], [2, 10], [3, 10], [4, 10],
   [5, 20], [6, 20], [7, 20], [8, 20],
   [9, 30], [10, 30], [11, 30], [12, 30],
   [13, 40], [14, 40], [15, 40], [16, 40],
   [99, 50]]

/-- The tree the grouper builds from `exds5` with `index_list = [1]`. -/
def exTree5 : GroupNode Nat :=
  .node [(10, .leaf [[1, 10], [2, 10], [3, 10], [4, 10]]),
         (20, .leaf [[5, 20], [6, 20], [7, 20], [8, 20]]),
         (30, .leaf [[9, 30], [10, 30], [11, 30], [12, 30]]),
         (40, .leaf [[13, 40], [14, 40], [15, 40], [16, 40]]),
         (50, .leaf [[99, 50]])]

/-- A random stream: zeros for the five leaf samplings (17 draws), then the
three borrow picks each choose slot `4` (the short slot itself) and entry
`0`. -/
def g5 : List Nat :=
  [0, 0, 0, 0, 0, 0, 0, 0, 0, 0, 0, 0, 0, 0, 0, 0, 0, 4, 0, 4, 0, 4, 0]

/-- C5 counterexample: with four complete slots and one short slot the
peer-borrowing fallback fires (5 − 1 ≥ 4), yet in this run every borrowed
entry is `[99, 50]` — taken from the short, incomplete slot itself, which is
a record no complete slot contains.  The spec's restriction to complete
sibling slots does not hold: `random.choice(dataset)` ranges over all
slots. -/
theorem C5_counterexample :
    group_data_by_unique_identifiers exds5 [1] = some exTree5 ∧
    (content_filter_recommendations_from_grouped_data exds5 4 g5 exTree5 0).1
      = ([[[1, 10], [2, 10], [3, 10], [4, 10]],
          [[5, 20], [6, 20], [7, 20], [8, 20]],
          [[9, 30], [10, 30], [11, 30], [12, 30]],
          [[13, 40], [14, 40], [15, 40], [16, 40]],
          [[99, 50], [99, 50], [99, 50], [99, 50]]], []) ∧
    [99, 50] ∉ ([[1, 10], [2, 10], [3, 10], [4, 10]] : List (List Nat)) ∧
    [99, 50] ∉ ([[5, 20], [6, 20], [7, 20], [8, 20]] : List (List Nat)) ∧
    [99, 50] ∉ ([[9, 30], [10, 30], [11, 30], [12, 30]] : List (List Nat)) ∧
    [99, 50] ∉ ([[13, 40], [14, 40], [15, 40], [16, 40]] : List (List Nat)) :=
  ⟨by simp [group_data_by_unique_identifiers, group_fold, upsert, exds5, exTree5],
    by decide, by decide, by decide, by decide, by decide⟩

/-- C5 as amended: whenever the peer-borrowing fill runs, every entry of
every resulting slot (in particular every appended entry) is an
already-selected entry of one of the combined slots at that node — but the
source slot may be any slot, incomplete ones and the short slot itself
included, not necessarily a complete one. -/
theorem C5_amended_borrow_source (g : List Nat)
    (slots : List (List (List α))) (index m : Nat) (hne : slots ≠ [])
    (hall : ∀ s ∈ slots, s ≠ []) :
    ∀ s ∈ (borrowFill g slots index m).1, ∀ e ∈ s, ∃ s0 ∈ slots, e ∈ s0 := by
  have h := borrowFill_inv (fun e => ∃ s0 ∈ slots, e ∈ s0) g slots index m hne
    (fun s hs => ⟨hall s hs, fun e he => ⟨s, hs, he⟩⟩)
  exact fun s hs e he => (h s hs).2 e he

/-- Witness for C5's amended statement: one borrow step on two singleton
slots. -/
theorem C5_amended_borrow_source_witness :
    ∃ s0 ∈ ([[[1, 10]], [[2, 10]]] : List (List (List Nat))), [1, 10] ∈ s0 :=
  C5_amended_borrow_source [0, 0] [[[1, 10]], [[2, 10]]] 1 1 (by decide)
    (by decide) [[2, 10], [1, 10]] (by decide) [1, 10] (by decide)

/-! ### Bucket keys, permutation purity and leaf non-emptiness -/

/-- First-match lookup among the buckets of a one-level grouping. -/
def lookupBucket [DecidableEq α] : List (α × List (List α)) → α →
    Option (List (List α))
  | [], _ => none
  | (k, v) :: rest, key => if k = key then some v else lookupBucket rest key

theorem upsert_pairs [DecidableEq α] (i : Nat)
    (acc : List (α × List (List α))) (key : α) (x : List α)
    (hacc : ∀ p ∈ acc, ∀ e ∈ p.2, e[i]? = some p.1)
    (hx : x[i]? = some key) :
    ∀ p ∈ upsert acc key x, ∀ e ∈ p.2, e[i]? = some p.1 := by
  induction acc with
  | nil =>
    intro p hp e he
    rcases List.mem_singleton.mp hp with rfl
    rcases List.mem_singleton.mp he with rfl
    exact hx
  | cons q rest ih =>
    obtain ⟨qk, qv⟩ := q
    by_cases hk : qk = key
    · simp only [upsert, if_pos hk]
      intro p hp e he
      rcases List.mem_cons.mp hp with heq | hmem
      · subst heq
        rcases List.mem_append.mp he with he' | he'
        · exact hacc (qk, qv) (List.mem_cons_self _ _) e he'
        · rcases List.mem_singleton.mp he' with rfl
          rw [hx, hk]
      · exact hacc p (List.mem_cons_of_mem _ hmem) e he
    · simp only [upsert, if_neg hk]
      intro p hp e he
      rcases List.mem_cons.mp hp with heq | hmem
      · subst heq
        exact hacc (qk, qv) (List.mem_cons_self _ _) e he
      · exact ih (fun p' hp' => hacc p' (List.mem_cons_of_mem _ hp')) p hmem e he

theorem group_fold_pairs [DecidableEq α] (i : Nat) :
    ∀ (ds : List (List α)) (acc m : List (α × List (List α))),
      group_fold acc ds i = some m →
      (∀ p ∈ acc, ∀ e ∈ p.2, e[i]? = some p.1) →
      ∀ p ∈ m, ∀ e ∈ p.2, e[i]? = some p.1 := by
  intro ds
  induction ds with
  | nil =>
    intro acc m h hacc
    simp only [group_fold, Option.some.injEq] at h
    subst h
    exact hacc
  | cons e rest ih =>
    intro acc m h hacc
    simp only [group_fold] at h
    cases he : e[i]? with
    | none => simp [he] at h
    | some key =>
      simp only [he] at h
      exact ih _ _ h (upsert_pairs i acc key e hacc he)

theorem lookupBucket_mem [DecidableEq α] (m : List (α × List (List α)))
    (key : α) (v : List (List α)) (h : lookupBucket m key = some v) :
    (key, v) ∈ m := by
  induction m with
  | nil => simp [lookupBucket] at h
  | cons q rest ih =>
    obtain ⟨qk, qv⟩ := q
    simp only [lookupBucket] at h
    by_cases hk : qk = key
    · rw [if_pos hk] at h
      obtain rfl := Option.some.inj h
      subst hk
      exact List.mem_cons_self _ _
    · rw [if_neg hk] at h
      exact List.mem_cons_of_mem _ (ih h)

theorem lookupChild_mem [DecidableEq α] (cs : List (α × GroupNode α))
    (key : α) (c : GroupNode α) (h : lookupChild cs key = some c) :
    (key, c) ∈ cs := by
  induction cs with
  | nil => simp [lookupChild] at h
  | cons q rest ih =>
    obtain ⟨qk, qc⟩ := q
    simp only [lookupChild] at h
    by_cases hk : qk = key
    · rw [if_pos hk] at h
      obtain rfl := Option.some.inj h
      subst hk
      exact List.mem_cons_self _ _
    · rw [if_neg hk] at h
      exact List.mem_cons_of_mem _ (ih h)

theorem group_buckets_lookup [DecidableEq α] (il : List Nat) :
    ∀ (bs : List (α × List (List α))) (cs : List (α × GroupNode α)),
      group_buckets bs il = some cs →
      ∀ (key : α) (c : GroupNode α), lookupChild cs key = some c →
        ∃ v, lookupBucket bs key = some v ∧
          group_data_by_unique_identifiers v il = some c := by
  intro bs
  induction bs with
  | nil =>
    intro cs h key c hc
    simp only [group_buckets, Option.some.injEq] at h
    subst h
    simp [lookupChild] at hc
  | cons q rest ih =>
    intro cs h key c hc
    obtain ⟨qk, qv⟩ := q
    simp only [group_buckets] at h
    cases hg : group_data_by_unique_identifiers qv il with
    | none => simp [hg] at h
    | some t =>
      simp only [hg] at h
      cases hb : group_buckets rest il with
      | none => simp [hb] at h
      | some ch =>
        simp only [hb, Option.some.injEq] at h
        subst h
        simp only [lookupChild] at hc
        by_cases hk : qk = key
        · rw [if_pos hk] at hc
          obtain rfl := Option.some.inj hc
          exact ⟨qv, by simp [lookupBucket, if_pos hk], hg⟩
        · rw [if_neg hk] at hc
          obtain ⟨v, hv, hgv⟩ := ih ch hb key c hc
          exact ⟨v, by simp [lookupBucket, if_neg hk]; exact hv, hgv⟩

theorem lookupChild_map_leaf [DecidableEq α] (bs : List (α × List (List α)))
    (key : α) (c : GroupNode α)
    (h : lookupChild (bs.map fun b => (b.1, GroupNode.leaf b.2)) key = some c) :
    ∃ v, lookupBucket bs key = some v ∧ c = GroupNode.leaf v := by
  induction bs with
  | nil => simp [lookupChild] at h
  | cons q rest ih =>
    obtain ⟨qk, qv⟩ := q
    simp only [List.map_cons, lookupChild] at h
    by_cases hk : qk = key
    · rw [if_pos hk] at h
      exact ⟨qv, by simp [lookupBucket, if_pos hk], (Option.some.inj h).symm⟩
    · rw [if_neg hk] at h
      obtain ⟨v, hv, hc⟩ := ih h
      exact ⟨v, by simp [lookupBucket, if_neg hk]; exact hv, hc⟩

theorem upsert_ne [DecidableEq α] (acc : List (α × List (List α)))
    (key : α) (x : List α) (hacc : ∀ p ∈ acc, p.2 ≠ []) :
    ∀ p ∈ upsert acc key x, p.2 ≠ [] := by
  induction acc with
  | nil =>
    intro p hp
    rcases List.mem_singleton.mp hp with rfl
    simp
  | cons q rest ih =>
    obtain ⟨qk, qv⟩ := q
    by_cases hk : qk = key
    · simp only [upsert, if_pos hk]
      intro p hp
      rcases List.mem_cons.mp hp with heq | hmem
      · subst heq; simp
      · exact hacc p (List.mem_cons_of_mem _ hmem)
    · simp only [upsert, if_neg hk]
      intro p hp
      rcases List.mem_cons.mp hp with heq | hmem
      · subst heq; exact hacc (qk, qv) (List.mem_cons_self _ _)
      · exact ih (fun p' hp' => hacc p' (List.mem_cons_of_mem _ hp')) p hmem

theorem group_fold_ne [DecidableEq α] (i : Nat) :
    ∀ (ds : List (List α)) (acc m : List (α × List (List α))),
      group_fold acc ds i = some m →
      (∀ p ∈ acc, p.2 ≠ []) → ∀ p ∈ m, p.2 ≠ [] := by
  intro ds
  induction ds with
  | nil =>
    intro acc m h hacc
    simp only [group_fold, Option.some.injEq] at h
    subst h
    exact hacc
  | cons e rest ih =>
    intro acc m h hacc
    simp only [group_fold] at h
    cases he : e[i]? with
    | none => simp [he] at h
    | some key =>
      simp only [he] at h
      exact ih _ _ h (upsert_ne acc key e hacc)

theorem leavesNEList_map_leaf (bs : List (α × List (List α)))
    (h : ∀ p ∈ bs, p.2 ≠ []) :
    leavesNEList (bs.map fun b => (b.1, GroupNode.leaf b.2)) := by
  induction bs with
  | nil => exact trivial
  | cons q rest ih =>
    obtain ⟨qk, qv⟩ := q
    exact ⟨h (qk, qv) (List.mem_cons_self _ _),
      ih (fun p hp => h p (List.mem_cons_of_mem _ hp))⟩

theorem group_buckets_leavesNE [DecidableEq α] (il : List Nat)
    (hgroup : ∀ (v : List (List α)) (t : GroupNode α),
      group_data_by_unique_identifiers v il = some t → leavesNE t) :
    ∀ (bs : List (α × List (List α))) (cs : List (α × GroupNode α)),
      group_buckets bs il = some cs → leavesNEList cs := by
  intro bs
  induction bs with
  | nil =>
    intro cs h
    simp only [group_buckets, Option.some.injEq] at h
    subst h
    exact trivial
  | cons q rest ih =>
    intro cs h
    obtain ⟨qk, qv⟩ := q
    simp only [group_buckets] at h
    cases hg : group_data_by_unique_identifiers qv il with
    | none => simp [hg] at h
    | some t =>
      simp only [hg] at h
      cases hb : group_buckets rest il with
      | none => simp [hb] at h
      | some ch =>
        simp only [hb, Option.some.injEq] at h
        subst h
        exact ⟨hgroup qv t hg, ih ch hb⟩

theorem group_leavesNE [DecidableEq α] :
    ∀ (il : List Nat) (ds : List (List α)) (t : GroupNode α),
      group_data_by_unique_identifiers ds il = some t → leavesNE t := by
  intro il
  induction il with
  | nil =>
    intro ds t h
    simp only [group_data_by_unique_identifiers] at h
    by_cases hds : ds.isEmpty
    · rw [if_pos hds] at h
      obtain rfl : GroupNode.node [] = t := Option.some.inj h
      exact trivial
    · rw [if_neg hds] at h
      exact absurd h (by simp)
  | cons i rest ih =>
    intro ds t h
    simp only [group_data_by_unique_identifiers] at h
    cases hgf : group_fold [] ds i with
    | none => simp [hgf] at h
    | some buckets =>
      simp only [hgf] at h
      have hbne : ∀ p ∈ buckets, p.2 ≠ [] :=
        group_fold_ne i ds [] buckets hgf (by simp)
      by_cases hr : rest.isEmpty
      · rw [if_pos hr] at h
        obtain rfl : GroupNode.node (buckets.map fun b => (b.1, GroupNode.leaf b.2)) = t :=
          Option.some.inj h
        exact leavesNEList_map_leaf buckets hbne
      · rw [if_neg hr] at h
        cases hgb : group_buckets buckets rest with
        | none => simp [hgb] at h
        | some children =>
          simp only [hgb] at h
          obtain rfl : GroupNode.node children = t := Option.some.inj h
          exact group_buckets_leavesNE rest (fun v t' => ih v t') buckets children hgb

theorem lookupChild_leavesNE [DecidableEq α] (cs : List (α × GroupNode α))
    (key : α) (c : GroupNode α) (h : lookupChild cs key = some c)
    (hne : leavesNEList cs) : leavesNE c := by
  induction cs with
  | nil => simp [lookupChild] at h
  | cons q rest ih =>
    obtain ⟨qk, qc⟩ := q
    simp only [lookupChild] at h
    by_cases hk : qk = key
    · rw [if_pos hk] at h
      obtain rfl := Option.some.inj h
      exact hne.1
    · rw [if_neg hk] at h
      exact ih h hne.2

theorem subtree_leavesNE [DecidableEq α] :
    ∀ (p : List α) (t s : GroupNode α), leavesNE t → subtreeAt t p = some s →
      leavesNE s := by
  intro p
  induction p with
  | nil =>
    intro t s hne h
    obtain rfl : t = s := by
      cases t <;> exact Option.some.inj h
    exact hne
  | cons key p ih =>
    intro t s hne h
    cases t with
    | leaf l => simp [subtreeAt] at h
    | node cs =>
      simp only [subtreeAt] at h
      cases hc : lookupChild cs key with
      | none => simp [hc] at h
      | some c =>
        simp only [hc] at h
        exact ih c s (lookupChild_leavesNE cs key c hc hne) h

/-- Records found in the subtree reached by key path `p` of a grouped tree
come from the dataset and agree with `p` on every grouping attribute along
the path. -/
theorem group_subtree [DecidableEq α] :
    ∀ (p : List α) (il : List Nat) (ds : List (List α)) (t s : GroupNode α),
      group_data_by_unique_identifiers ds il = some t →
      subtreeAt t p = some s →
      ∀ e ∈ flatten s, e ∈ ds ∧
        ∀ j (hj : j < p.length), ∃ i, il[j]? = some i ∧
          e[i]? = some (p.get ⟨j, hj⟩) := by
  intro p
  induction p with
  | nil =>
    intro il ds t s hg hsub e he
    obtain rfl : t = s := by cases t <;> exact Option.some.inj hsub
    refine ⟨(group_flat il ds t hg).mem_iff.mp he, ?_⟩
    intro j hj
    simp at hj
  | cons key p ih =>
    intro il ds t s hg hsub e he
    cases il with
    | nil =>
      simp only [group_data_by_unique_identifiers] at hg
      by_cases hds : ds.isEmpty
      · rw [if_pos hds] at hg
        obtain rfl : GroupNode.node [] = t := Option.some.inj hg
        simp [subtreeAt, lookupChild] at hsub
      · rw [if_neg hds] at hg
        exact absurd hg (by simp)
    | cons i rest =>
      simp only [group_data_by_unique_identifiers] at hg
      cases hgf : group_fold [] ds i with
      | none => simp [hgf] at hg
      | some buckets =>
        simp only [hgf] at hg
        have hpairs := group_fold_pairs i ds [] buckets hgf (by simp)
        have hds_mem : ∀ (key' : α) (v : List (List α)), (key', v) ∈ buckets →
            ∀ x ∈ v, x ∈ ds := by
          intro key' v hv x hx
          have hperm : (bflat buckets).Perm ds := by
            simpa [bflat] using group_fold_flat i ds [] buckets hgf
          exact hperm.mem_iff.mp (mem_bflat buckets key' v hv x hx)
        by_cases hr : rest.isEmpty
        · rw [if_pos hr] at hg
          obtain rfl : GroupNode.node (buckets.map fun b => (b.1, GroupNode.leaf b.2)) = t :=
            Option.some.inj hg
          simp only [subtreeAt] at hsub
          cases hc : lookupChild (buckets.map fun b => (b.1, GroupNode.leaf b.2)) key with
          | none => simp [hc] at hsub
          | some c =>
            simp only [hc] at hsub
            obtain ⟨v, hv, rfl⟩ := lookupChild_map_leaf buckets key c hc
            cases p with
            | nil =>
              obtain rfl : GroupNode.leaf v = s := by
                simp only [subtreeAt] at hsub
                exact Option.some.inj hsub
              refine ⟨hds_mem key v (lookupBucket_mem _ _ _ hv) e he, ?_⟩
              intro j hj
              have hj0 : j = 0 := by simp at hj; omega
              subst hj0
              refine ⟨i, by simp, ?_⟩
              simpa using hpairs (key, v) (lookupBucket_mem _ _ _ hv) e he
            | cons key2 p2 => simp [subtreeAt] at hsub
        · rw [if_neg hr] at hg
          cases hgb : group_buckets buckets rest with
          | none => simp [hgb] at hg
          | some children =>
            simp only [hgb] at hg
            obtain rfl : GroupNode.node children = t := Option.some.inj hg
            simp only [subtreeAt] at hsub
            cases hc : lookupChild children key with
            | none => simp [hc] at hsub
            | some c =>
              simp only [hc] at hsub
              obtain ⟨v, hv, hgv⟩ := group_buckets_lookup rest buckets children hgb key c hc
              have hmem := lookupBucket_mem _ _ _ hv
              have hrec := ih rest v c s hgv hsub e he
              refine ⟨hds_mem key v hmem e hrec.1, ?_⟩
              intro j hj
              cases j with
              | zero =>
                refine ⟨i, by simp, ?_⟩
                simpa using hpairs (key, v) hmem e hrec.1
              | succ j2 =>
                have hj2 : j2 < p.length := by simpa using hj
                obtain ⟨i2, hi2, he2⟩ := hrec.2 j2 hj2
                refine ⟨i2, by simpa using hi2, ?_⟩
                simpa using he2

theorem flattenList_mem (cs : List (α × GroupNode α)) (key : α)
    (c : GroupNode α) (h : (key, c) ∈ cs) (e : List α) (he : e ∈ flatten c) :
    e ∈ flattenList cs := by
  induction cs with
  | nil => simp at h
  | cons q rest ih =>
    obtain ⟨q1, q2⟩ := q
    rcases List.mem_cons.mp h with heq | hmem
    · have hc2 : c = q2 := congrArg Prod.snd heq
      simp only [flattenList]
      exact List.mem_append.mpr (Or.inl (hc2 ▸ he))
    · simp only [flattenList]
      exact List.mem_append.mpr (Or.inr (ih hmem))

theorem cfChildren_entries (orig : List (List α)) (k : Nat) (_hk : 1 ≤ k)
    (cs : List (α × GroupNode α))
    (hcs : ∀ p ∈ cs, leavesNE p.2 → ∀ (g : List Nat) (level : Nat), level ≠ 0 →
      ∀ s ∈ (content_filter_recommendations_from_grouped_data orig k g p.2 level).1.1,
        s ≠ [] ∧ ∀ e ∈ s, e ∈ flatten p.2)
    (hne : leavesNEList cs) :
    ∀ (g : List Nat) (level : Nat),
      ∀ s ∈ (cfChildren orig k g cs level).1.1,
        s ≠ [] ∧ ∀ e ∈ s, e ∈ flattenList cs := by
  induction cs with
  | nil =>
    intro g level s hs
    simp [cfChildren] at hs
  | cons q rest ih =>
    intro g level s hs
    obtain ⟨q1, q2⟩ := q
    have hne2 : leavesNE q2 ∧ leavesNEList rest := hne
    simp only [cfChildren] at hs
    rcases List.mem_append.mp hs with hsA | hsB
    · have h := hcs (q1, q2) (List.mem_cons_self _ _) hne2.1 g (level + 1)
        (by omega) s hsA
      refine ⟨h.1, fun e he => ?_⟩
      show e ∈ flattenList ((q1, q2) :: rest)
      simp only [flattenList]
      exact List.mem_append.mpr (Or.inl (h.2 e he))
    · have h := ih (fun p hp => hcs p (List.mem_cons_of_mem _ hp)) hne2.2 _ level s hsB
      refine ⟨h.1, fun e he => ?_⟩
      show e ∈ flattenList ((q1, q2) :: rest)
      simp only [flattenList]
      exact List.mem_append.mpr (Or.inr (h.2 e he))

/-- At any non-outermost level, every slot the recommender returns is
non-empty and contains only records of the subtree it was computed from (the
global fallback, the only path that could inject outside records, fires only
at level 0). -/
theorem cf_entries (orig : List (List α)) (k : Nat) (hk : 1 ≤ k)
    (t : GroupNode α) :
    leavesNE t → ∀ (g : List Nat) (level : Nat), level ≠ 0 →
      ∀ s ∈ (content_filter_recommendations_from_grouped_data orig k g t level).1.1,
        s ≠ [] ∧ ∀ e ∈ s, e ∈ flatten t := by
  refine groupNode_ind (motive := fun t => leavesNE t →
    ∀ (g : List Nat) (level : Nat), level ≠ 0 →
      ∀ s ∈ (content_filter_recommendations_from_grouped_data orig k g t level).1.1,
        s ≠ [] ∧ ∀ e ∈ s, e ∈ flatten t) ?_ ?_ t
  · intro data hne g level _ s hs
    have hdne : data ≠ [] := hne
    have hpos : 0 < data.length := List.length_pos.mpr hdne
    simp only [content_filter_recommendations_from_grouped_data] at hs
    by_cases hlt : data.length < k
    · rw [if_pos hlt] at hs
      rcases List.mem_singleton.mp hs with rfl
      refine ⟨sample_ne_nil g data _ hdne (by omega : 1 ≤ min k data.length), ?_⟩
      intro e he
      show e ∈ data
      exact sample_mem g data _ e he
    · rw [if_neg hlt] at hs
      rcases List.mem_singleton.mp hs with rfl
      refine ⟨sample_ne_nil g data k hdne hk, ?_⟩
      intro e he
      show e ∈ data
      exact sample_mem g data k e he
  · intro cs hcs hne g level hl s hs
    simp only [content_filter_recommendations_from_grouped_data] at hs
    have hall := cfChildren_entries orig k hk cs hcs hne g level
    have hinv := fillAll_inv (fun e => e ∈ flattenList cs) orig k level
      (cfChildren orig k g cs level).1.2.length
      (cfChildren orig k g cs level).2
      (cfChildren orig k g cs level).1.1
      (cfChildren orig k g cs level).1.2 hk hl
      (fun s' hs' => hall s' hs')
    exact ⟨(hinv s hs).1, fun e he => (hinv s hs).2 e he⟩

/-! ### C6 -/

/-- C6 (priority preservation): run the recommender, at its true recursion
depth `p.length ≥ 1`, on the subtree the grouper placed at key path `p`.
Every record in every returned slot — in particular every record appended by
the peer-borrowing fallback at this or any deeper level — comes from the
dataset and agrees with the slot's attribute-path prefix `p` on every
grouping attribute at levels strictly above the current one: the fallback
never crosses a higher-priority attribute boundary. -/
theorem C6_priority_preservation [DecidableEq α] (ds : List (List α))
    (il : List Nat) (t : GroupNode α) (p : List α) (s : GroupNode α)
    (k : Nat) (g : List Nat) (hk : 1 ≤ k)
    (hg : group_data_by_unique_identifiers ds il = some t)
    (hsub : subtreeAt t p = some s) (hp : p ≠ []) :
    ∀ slot ∈ (content_filter_recommendations_from_grouped_data ds k g s p.length).1.1,
      ∀ e ∈ slot, e ∈ ds ∧
        ∀ j (hj : j < p.length), ∃ i, il[j]? = some i ∧
          e[i]? = some (p.get ⟨j, hj⟩) := by
  intro slot hslot e he
  have hlvl : p.length ≠ 0 := by
    cases p with
    | nil => exact absurd rfl hp
    | cons a b => simp
  have hne : leavesNE s := subtree_leavesNE p t s (group_leavesNE il ds t hg) hsub
  have hflat : e ∈ flatten s :=
    (cf_entries ds k hk s hne g p.length hlvl slot hslot).2 e he
  exact group_subtree p il ds t s hg hsub e hflat

/-- Witness for C6: the singleton-category subtree of `exds5` at path
`[50]`, run at level 1. -/
theorem C6_priority_preservation_witness :
    [99, 50] ∈ exds5 ∧
    ∃ i, ([1] : List Nat)[0]? = some i ∧
      ([99, 50] : List Nat)[i]? = some 50 := by
  have h := C6_priority_preservation exds5 [1] exTree5 [50]
    (.leaf [[99, 50]]) 4 [] (by decide)
    (by simp [group_data_by_unique_identifiers, group_fold, upsert, exds5, exTree5])
    (by simp [subtreeAt, lookupChild, exTree5]) (by decide) [[99, 50]] (by decide)
    [99, 50] (by decide)
  exact ⟨h.1, h.2 0 (by decide)⟩

end TeamV1A1
